import Mathlib

/-!
Verification of the reactivity engine of this repository: a shallow
embedding of the dependency-tracking core (track / trigger / effect run /
cleanup / stop from effect.ts, the proxy get and set handlers from
baseHandlers.ts, and the cached computed ref from computed.ts), together
with theorems settling the specification claims.

Object identities are modelled as natural numbers, property keys as an
inductive type distinguishing string keys, symbol keys (with a flag for
membership in the built-in symbol set) and the synthetic ITERATE_KEY.
The process-wide mutable registries (targetMap, the running-effect stack,
the shouldTrack flag) become fields of an explicit state record, and
effect bodies are small op programs interpreted by a fuel-indexed
interpreter, so every definition is executable.
-/

namespace VueReactivity

/-- Property keys: concrete string keys, symbol keys (the Bool marks
membership in the builtInSymbols set built from the Symbol constructor's
own symbol-valued properties), and the synthetic ITERATE_KEY (itself a
symbol, but not a built-in one). -/
inductive Key where
  | str (s : String)
  | sym (n : Nat) (builtin : Bool)
  | iterate
deriving DecidableEq, Repr

/-- The OperationTypes enum of operations.ts. -/
inductive OperationTypes where
  | get
  | has
  | iterate
  | set
  | add
  | delete
  | clear
deriving DecidableEq, Repr

/-- Raw stored values: numbers, ref containers (by identity), and plain
objects (by identity).  All values of this type are raw (unproxied), so
the toRaw normalisation the source applies to incoming values is the
identity here. -/
inductive Val where
  | num (n : Nat)
  | ref (id : Nat)
  | obj (id : Nat)
deriving DecidableEq, Repr

/-- isRef check on a stored value. -/
def Val.isRef : Val → Bool
  | .ref _ => true
  | _ => false

abbrev EffectId := Nat
abbrev Tgt := Nat

/-- First-match association-list lookup (Map.prototype.get). -/
def alget {α β : Type} [DecidableEq α] : List (α × β) → α → Option β
  | [], _ => none
  | (p :: ps), a => if p.1 = a then some p.2 else alget ps a

/-- Association-list update: replace the first binding of the key, or
append a fresh binding (Map.prototype.set). -/
def alset {α β : Type} [DecidableEq α] : List (α × β) → α → β → List (α × β)
  | [], a, b => [(a, b)]
  | (p :: ps), a, b => if p.1 = a then (a, b) :: ps else p :: alset ps a b

theorem alget_alset {α β : Type} [DecidableEq α] (l : List (α × β)) (a : α) (b : β) (a' : α) :
    alget (alset l a b) a' = if a' = a then some b else alget l a' := by
  induction l with
  | nil =>
    by_cases h : a' = a
    · subst h; simp [alget, alset]
    · have h2 : ¬ a = a' := fun hc => h hc.symm
      simp [alget, alset, h, h2]
  | cons p ps ih =>
    by_cases hp : p.1 = a
    · by_cases h : a' = a
      · subst h; simp [alget, alset, hp]
      · have h2 : ¬ a = a' := fun hc => h hc.symm
        have h3 : ¬ p.1 = a' := fun hc => h2 (hp.symm.trans hc)
        simp only [alset, if_pos hp, alget, if_neg h2, if_neg h, if_neg h3]
    · by_cases h : p.1 = a'
      · have h2 : ¬ a' = a := fun hc => hp (h.trans hc)
        simp [alget, alset, hp, h, h2]
      · simp [alget, alset, hp, h, ih]

theorem alget_alset_self {α β : Type} [DecidableEq α] (l : List (α × β)) (a : α) (b : β) :
    alget (alset l a b) a = some b := by
  simp [alget_alset]

theorem alget_alset_ne {α β : Type} [DecidableEq α] (l : List (α × β)) (a : α) (b : β)
    (a' : α) (h : a' ≠ a) : alget (alset l a b) a' = alget l a' := by
  simp [alget_alset, h]

/-- The mutable per-effect bookkeeping of a ReactiveEffect: the active
flag and the deps back-reference list (each entry identifies one
Dependency Set that currently contains the effect, by its (target, key)
location in targetMap). -/
structure EffectDyn where
  active : Bool
  deps : List (Tgt × Option Key)
deriving DecidableEq, Repr

/-- One primitive action of an effect body: a tracked property read
through a reactive proxy, a property write through the proxy (set
handler), an increment (get then set of the old numeric value plus one,
as in state.n++), or a thrown exception. -/
inductive Op where
  | readOp (t : Tgt) (k : Key)
  | writeOp (t : Tgt) (k : Key) (v : Val)
  | incrOp (t : Tgt) (k : Key)
  | throwOp
deriving DecidableEq, Repr

/-- The immutable configuration of a ReactiveEffect fixed at
createReactiveEffect time: the computed marker, whether a scheduler
option was supplied, and the body (the wrapped fn). -/
structure EffectStatic where
  computed : Bool
  scheduler : Bool
  body : List Op

/-- Global environment: the static data of every effect and the
Array.isArray predicate on targets. -/
structure Env where
  eff : EffectId → EffectStatic
  isArray : Tgt → Bool

/-- depsMap: property key (possibly undefined) to Dependency Set.  A
Dependency Set is a JS Set of effects, modelled as an insertion-ordered
duplicate-free list. -/
abbrev DepsMap := List (Option Key × List EffectId)

/-- targetMap: target identity to depsMap. -/
abbrev TargetMap := List (Tgt × DepsMap)

/-- The plain stored own-properties of raw target objects. -/
abbrev Heap := List ((Tgt × Key) × Val)

/-- The process-wide mutable state of the engine: targetMap, the dynamic
part of every effect, activeReactiveEffectStack (head is the stack top),
the raw object heap, the shouldTrack flag, plus two ghost logs recording
body executions and scheduler invocations. -/
structure State where
  targetMap : TargetMap
  dyn : List (EffectId × EffectDyn)
  stack : List EffectId
  heap : Heap
  shouldTrack : Bool
  runLog : List EffectId
  schedLog : List EffectId
deriving DecidableEq, Repr

/-- Dynamic data of an effect (a freshly created effect is active with an
empty deps list). -/
def dynOf (st : State) (e : EffectId) : EffectDyn :=
  (alget st.dyn e).getD ⟨true, []⟩

/-- The Dependency Set stored for a location, when present. -/
def depGet (tm : TargetMap) (t : Tgt) (k : Option Key) : Option (List EffectId) :=
  (alget tm t).bind (fun dm => alget dm k)

/-- The Dependency Set stored for a location, defaulting to empty. -/
def depGetD (tm : TargetMap) (t : Tgt) (k : Option Key) : List EffectId :=
  (depGet tm t k).getD []

/-- Key normalisation done by track: an ITERATE operation is recorded
against ITERATE_KEY instead of the supplied key. -/
def normKey (type : OperationTypes) (k : Option Key) : Option Key :=
  if type = OperationTypes.iterate then some Key.iterate else k

/-- track(target, type, key): no-op when shouldTrack is false or no
effect is running; otherwise lazily creates the depsMap and Dependency
Set for the (normalised) location and, when the stack-top effect is not
yet a member, adds it to the set and pushes the set onto the effect's
deps back-reference list. -/
def track (st : State) (t : Tgt) (type : OperationTypes) (k : Option Key) : State :=
  if st.shouldTrack = false then st
  else
    match st.stack.head? with
    | none => st
    | some e =>
      let k' := normKey type k
      let dm := (alget st.targetMap t).getD []
      let dep := (alget dm k').getD []
      if e ∈ dep then st
      else
        let d := dynOf st e
        { st with
          targetMap := alset st.targetMap t (alset dm k' (dep ++ [e]))
          dyn := alset st.dyn e { d with deps := d.deps ++ [(t, k')] } }

/-- dep.delete(effect) on the Dependency Set at one location; leaves the
map untouched when the location was never materialised. -/
def depDelMap (tm : TargetMap) (t : Tgt) (k : Option Key) (e : EffectId) : TargetMap :=
  match alget tm t with
  | none => tm
  | some dm =>
    match alget dm k with
    | none => tm
    | some dep => alset tm t (alset dm k (dep.erase e))

/-- cleanup(effect): removes the effect from every Dependency Set on its
deps back-reference list and resets that list to empty (no-op when the
list is already empty). -/
def cleanup (e : EffectId) (st : State) : State :=
  let d := dynOf st e
  if d.deps.length = 0 then st
  else
    { st with
      targetMap := d.deps.foldl (fun tm p => depDelMap tm p.1 p.2 e) st.targetMap
      dyn := alset st.dyn e { d with deps := [] } }

/-- stop(effect): when the effect is active, runs cleanup, fires the
onStop callback (the returned Bool records that invocation) and clears
the active flag; otherwise does nothing. -/
def stop (e : EffectId) (st : State) : State × Bool :=
  if (dynOf st e).active then
    let st1 := cleanup e st
    let d := dynOf st1 e
    ({ st1 with dyn := alset st1.dyn e { d with active := false } }, true)
  else (st, false)

/-- JS-Set-style insertion: appends the element unless already present. -/
def addIfAbsent (l : List EffectId) (e : EffectId) : List EffectId :=
  if e ∈ l then l else l ++ [e]

/-- addRunners: distributes every effect of one Dependency Set into the
(effects, computedRunners) accumulator pair according to its computed
marker, de-duplicating via Set insertion; skips an absent set. -/
def addRunners (env : Env) (acc : List EffectId × List EffectId)
    (effectsToAdd : Option (List EffectId)) : List EffectId × List EffectId :=
  match effectsToAdd with
  | none => acc
  | some l =>
    l.foldl
      (fun acc e =>
        if (env.eff e).computed then (acc.1, addIfAbsent acc.2 e)
        else (addIfAbsent acc.1 e, acc.2))
      acc

/-- The synthetic iteration key used by trigger on ADD/DELETE: the length
field for arrays, ITERATE_KEY otherwise. -/
def iterationKey (env : Env) (t : Tgt) : Key :=
  if env.isArray t then Key.str "length" else Key.iterate

/-- The (effects, computedRunners) pair collected by trigger(target,
type, key), or none when the target has never been tracked: every
Dependency Set under the target for CLEAR, otherwise the set of the
given key (when defined) plus, on ADD/DELETE, the set of the synthetic
iteration key. -/
def triggerPartition (env : Env) (st : State) (t : Tgt) (type : OperationTypes)
    (k : Option Key) : Option (List EffectId × List EffectId) :=
  match alget st.targetMap t with
  | none => none
  | some dm =>
    if type = OperationTypes.clear then
      some (dm.foldl (fun acc p => addRunners env acc (some p.2)) ([], []))
    else
      let acc := if k.isSome then addRunners env ([], []) (alget dm k) else ([], [])
      let acc :=
        if type = OperationTypes.add ∨ type = OperationTypes.delete then
          addRunners env acc (alget dm (some (iterationKey env t)))
        else acc
      some acc

/-- The ordered notification list of one trigger call: all
computedRunners first, then the plain effects (each invoked via
scheduleRun in this order). -/
def trigger (env : Env) (st : State) (t : Tgt) (type : OperationTypes)
    (k : Option Key) : List EffectId :=
  match triggerPartition env st t type k with
  | none => []
  | some (efs, crs) => crs ++ efs

/-- Reflect.get / own-property lookup on the raw heap. -/
def heapGet (h : Heap) (t : Tgt) (k : Key) : Option Val :=
  alget h (t, k)

/-- Reflect.set on the raw heap. -/
def heapSet (h : Heap) (t : Tgt) (k : Key) (v : Val) : Heap :=
  alset h (t, k) v

/-- One trigger event recorded by a proxy handler. -/
abbrev TrigEvent := Tgt × OperationTypes × Key

/-- The set trap of the mutable proxy handlers (value already raw, so
the toRaw normalisation is the identity): when the old value is a ref
and the new one is not, the write is delegated to the ref (which
notifies through its own setter) and no trigger event is recorded here;
otherwise the value is stored and, only when the target is the raw
receiver (not a prototype-chain delegate), an ADD event is recorded for
a previously absent key or a SET event when the value changed by
identity; an unchanged value records nothing. -/
def set (h : Heap) (t : Tgt) (k : Key) (v : Val) (rawReceiver : Tgt) :
    Heap × List TrigEvent :=
  let hadKey := (heapGet h t k).isSome
  let oldValue := heapGet h t k
  if (oldValue.any Val.isRef) && !v.isRef then
    (h, [])
  else
    let h' := heapSet h t k v
    if t = rawReceiver then
      if !hadKey then (h', [(t, OperationTypes.add, k)])
      else if some v ≠ oldValue then (h', [(t, OperationTypes.set, k)])
      else (h', [])
    else (h', [])

/-- isSymbol(key) for our key model (ITERATE_KEY is a symbol too). -/
def Key.isSymbolKey : Key → Bool
  | .str _ => false
  | .sym _ _ => true
  | .iterate => true

/-- builtInSymbols.has(key): exactly the symbol keys marked built-in. -/
def Key.isBuiltin : Key → Bool
  | .sym _ b => b
  | _ => false

/-- Shape of the value returned by the get trap: the raw Reflect.get
result as-is, the inner value of an auto-unwrapped ref, or a lazily
wrapped (readonly or reactive) object. -/
inductive GetRes where
  | raw (v : Option Val)
  | refVal (r : Nat)
  | wrapped (isReadonly : Bool) (o : Nat)
deriving DecidableEq, Repr

/-- The get trap produced by createGetter(isReadonly): a built-in-symbol
key returns the Reflect.get result immediately (no tracking, no ref
unwrap, no lazy wrap); a ref result is unwrapped and returned without
tracking; otherwise a GET track event is recorded (the Bool component)
and an object result is lazily wrapped according to the readonly flag. -/
def get (isReadonly : Bool) (h : Heap) (t : Tgt) (k : Key) : GetRes × Bool :=
  let res := heapGet h t k
  if k.isSymbolKey && k.isBuiltin then (.raw res, false)
  else
    match res with
    | some (.ref r) => (.refVal r, false)
    | some (.obj o) => (.wrapped isReadonly o, true)
    | v => (.raw v, true)

/-- Outcome of an interpreter step: normal completion, a propagating
exception, or fuel exhaustion. -/
inductive Res where
  | ok
  | thrown
  | fuelOut
deriving DecidableEq, Repr

/-- Pending interpreter work: invoking one effect function, executing the
remaining ops of a body, a trigger call, dispatching a list of recorded
trigger events before resuming a body, or running the collected
notification list of a trigger. -/
inductive Call where
  | runE (e : EffectId)
  | body (ops : List Op)
  | trig (t : Tgt) (type : OperationTypes) (k : Option Key)
  | evs (l : List TrigEvent) (rest : List Op)
  | runs (es : List EffectId)

/-- Pushes an effect onto the running stack and records the body
execution in the ghost run log. -/
def pushRun (st : State) (e : EffectId) : State :=
  { st with stack := e :: st.stack, runLog := st.runLog ++ [e] }

/-- Fuel-indexed interpreter for the run/trigger machinery.  runE mirrors
the run function of effect.ts: an inactive effect executes its raw body
directly; an effect already on the running stack returns undefined
without doing anything; otherwise cleanup, push, body, and an
unconditional pop before propagating the body's outcome.  A write
records the set handler's trigger events and dispatches each as a
trigger call; a trigger call collects its notification list from the
current state and then invokes each listed effect, via its scheduler
when it has one (ghost-logged) and by a direct recursive run otherwise. -/
def engine (env : Env) : Nat → Call → State → State × Res
  | 0, _, st => (st, .fuelOut)
  | fuel + 1, call, st =>
    match call with
    | .runE e =>
      if (dynOf st e).active = false then
        engine env fuel (.body (env.eff e).body) { st with runLog := st.runLog ++ [e] }
      else if e ∈ st.stack then (st, .ok)
      else
        let r := engine env fuel (.body (env.eff e).body) (pushRun (cleanup e st) e)
        ({ r.1 with stack := r.1.stack.tail }, r.2)
    | .body [] => (st, .ok)
    | .body (op :: rest) =>
      match op with
      | .readOp t k => engine env fuel (.body rest) (track st t OperationTypes.get (some k))
      | .throwOp => (st, .thrown)
      | .writeOp t k v =>
        let p := set st.heap t k v t
        engine env fuel (.evs p.2 rest) { st with heap := p.1 }
      | .incrOp t k =>
        let st1 := track st t OperationTypes.get (some k)
        let old : Nat :=
          match heapGet st1.heap t k with
          | some (.num n) => n
          | _ => 0
        let p := set st1.heap t k (.num (old + 1)) t
        engine env fuel (.evs p.2 rest) { st1 with heap := p.1 }
    | .trig t type k => engine env fuel (.runs (trigger env st t type k)) st
    | .evs [] rest => engine env fuel (.body rest) st
    | .evs (ev :: es) rest =>
      let r := engine env fuel (.trig ev.1 ev.2.1 (some ev.2.2)) st
      match r.2 with
      | .ok => engine env fuel (.evs es rest) r.1
      | _ => r
    | .runs [] => (st, .ok)
    | .runs (e :: es) =>
      if (env.eff e).scheduler then
        engine env fuel (.runs es) { st with schedLog := st.schedLog ++ [e] }
      else
        let r := engine env fuel (.runE e) st
        match r.2 with
        | .ok => engine env fuel (.runs es) r.1
        | _ => r

/-- The mutable state of a ComputedRefImpl: the _dirty flag, the cached
_value, a ghost counter of getter invocations (each effect.run of the
internal effect evaluates the getter once), and this.dep — the
subscribers of the computed ref itself. -/
structure ComputedState where
  dirty : Bool
  value : Nat
  getterCount : Nat
  subs : List EffectId
deriving DecidableEq, Repr

/-- The scheduler installed on the internal effect of a ComputedRefImpl:
invoked when a dependency of the computed changed; when the cache is not
already dirty it sets _dirty and fires triggerRefValue(this), notifying
the subscribers in this.dep (returned as the second component); it never
runs the getter. -/
def computedSched (c : ComputedState) : ComputedState × List EffectId :=
  if !c.dirty then ({ c with dirty := true }, c.subs) else (c, [])

/-- trackRefValue(self): subscribes the currently running outer effect
(when there is one) to the computed ref's own dep. -/
def trackRefStep (outer : Option EffectId) (c : ComputedState) : ComputedState :=
  match outer with
  | none => c
  | some p => if p ∈ c.subs then c else { c with subs := c.subs ++ [p] }

/-- The value getter of ComputedRefImpl: first tracks the outer effect
via trackRefValue, then, when dirty, clears the flag and recomputes the
cache by running the internal effect (one getter invocation, whose
result is the supplied getterVal); returns the cached value. -/
def computedGetValue (outer : Option EffectId) (getterVal : Nat) (c : ComputedState) :
    Nat × ComputedState :=
  let c1 := trackRefStep outer c
  if c1.dirty then
    (getterVal, { c1 with dirty := false, value := getterVal, getterCount := c1.getterCount + 1 })
  else (c1.value, c1)

theorem trackRefStep_dirty (o : Option EffectId) (c : ComputedState) :
    (trackRefStep o c).dirty = c.dirty := by
  cases o with
  | none => rfl
  | some p => by_cases hp : p ∈ c.subs <;> simp [trackRefStep, hp]

theorem trackRefStep_value (o : Option EffectId) (c : ComputedState) :
    (trackRefStep o c).value = c.value := by
  cases o with
  | none => rfl
  | some p => by_cases hp : p ∈ c.subs <;> simp [trackRefStep, hp]

theorem trackRefStep_getterCount (o : Option EffectId) (c : ComputedState) :
    (trackRefStep o c).getterCount = c.getterCount := by
  cases o with
  | none => rfl
  | some p => by_cases hp : p ∈ c.subs <;> simp [trackRefStep, hp]

/-- Claim C10: for every read through a wrapper whose key is a built-in
symbol, the get handler returns the raw Reflect.get result immediately:
no track event is recorded (the Bool is false), a ref-valued result is
not auto-unwrapped and an object-valued result is not lazily wrapped
(the result is GetRes.raw, never refVal or wrapped). -/
theorem builtin_symbol_get_skips (isReadonly : Bool) (h : Heap) (t : Tgt) (n : Nat) :
    get isReadonly h t (Key.sym n true) =
      (GetRes.raw (heapGet h t (Key.sym n true)), false) := by
  simp [get, Key.isSymbolKey, Key.isBuiltin]

/-- Claim C5: through the mutable set trap, when the previous value is
not a ref: exactly one ADD event fires when the key was absent and the
receiver is canonical, exactly one SET event fires when the key existed
and the value changed by identity, no event fires when the value is
unchanged, and a prototype-chain delegated write (raw receiver differs
from the target) never records an event. -/
theorem set_trigger_classification (h : Heap) (t : Tgt) (k : Key) (v : Val) (recv : Tgt)
    (hOld : ∀ r, heapGet h t k ≠ some (Val.ref r)) :
    (heapGet h t k = none → t = recv →
      (set h t k v recv).2 = [(t, OperationTypes.add, k)]) ∧
    (∀ ov, heapGet h t k = some ov → v ≠ ov → t = recv →
      (set h t k v recv).2 = [(t, OperationTypes.set, k)]) ∧
    (∀ ov, heapGet h t k = some ov → v = ov → (set h t k v recv).2 = []) ∧
    (t ≠ recv → (set h t k v recv).2 = []) := by
  have hguard : Option.any Val.isRef (heapGet h t k) = false := by
    cases hv : heapGet h t k with
    | none => rfl
    | some ov =>
      cases ov with
      | ref r => exact absurd hv (hOld r)
      | num n => rfl
      | obj o => rfl
  refine ⟨?_, ?_, ?_, ?_⟩
  · intro hnone hrecv
    subst hrecv
    simp [set, hguard, hnone]
  · intro ov hsome hne hrecv
    subst hrecv
    have hov : ov.isRef = false := by rw [hsome] at hguard; simpa using hguard
    simp [set, hguard, hsome, hne, hov]
  · intro ov hsome hveq
    subst hveq
    simp [set, hguard, hsome]
  · intro hrecv
    simp [set, hguard, hrecv]

theorem set_trigger_classification_witness :
    ((VueReactivity.set [((0, Key.str "a"), Val.num 1)] 0 (Key.str "b") (Val.num 5) 0).2 =
      [(0, OperationTypes.add, Key.str "b")]) ∧
    ((VueReactivity.set [((0, Key.str "a"), Val.num 1)] 0 (Key.str "a") (Val.num 5) 0).2 =
      [(0, OperationTypes.set, Key.str "a")]) ∧
    ((VueReactivity.set [((0, Key.str "a"), Val.num 1)] 0 (Key.str "a") (Val.num 1) 0).2 = []) ∧
    ((VueReactivity.set [((0, Key.str "a"), Val.num 1)] 0 (Key.str "a") (Val.num 5) 3).2 = []) :=
  ⟨(set_trigger_classification _ 0 (Key.str "b") (Val.num 5) 0
      (by intro r hc; simp [heapGet, alget] at hc)).1 (by simp [heapGet, alget]) rfl,
   (set_trigger_classification _ 0 (Key.str "a") (Val.num 5) 0
      (by intro r hc; simp [heapGet, alget] at hc)).2.1
      (Val.num 1) (by simp [heapGet, alget]) (by simp) rfl,
   (set_trigger_classification _ 0 (Key.str "a") (Val.num 1) 0
      (by intro r hc; simp [heapGet, alget] at hc)).2.2.1
      (Val.num 1) (by simp [heapGet, alget]) rfl,
   (set_trigger_classification _ 0 (Key.str "a") (Val.num 5) 3
      (by intro r hc; simp [heapGet, alget] at hc)).2.2.2 (by simp)⟩

/-- Claim C3 counterexample: when the computed is already dirty (its
cache was invalidated and not yet re-read), a further dependency change
invokes the scheduler but does NOT notify the computed's subscribers, so
the scheduler does not unconditionally notify them as claimed. -/
theorem computedSched_notify_cex :
    ¬ ((computedSched ⟨true, 0, 0, [5]⟩).2 = (⟨true, 0, 0, [5]⟩ : ComputedState).subs) := by
  decide

/-- Helper: full behavioural description of the computed scheduler, by
case analysis on the dirty flag. -/
theorem computedSched_props (c : ComputedState) :
    (computedSched c).1.dirty = true ∧
    (computedSched c).1.value = c.value ∧
    (computedSched c).1.getterCount = c.getterCount ∧
    (c.dirty = false → computedSched c = ({ c with dirty := true }, c.subs)) ∧
    (c.dirty = true → computedSched c = (c, [])) := by
  cases hc : c.dirty <;> simp [computedSched, hc]

/-- Claim C3 (amended): the internal scheduler never recomputes (cached
value and getter-invocation count are untouched) and leaves the dirty
flag true; when the flag was previously false it sets it and notifies
exactly the computed's own subscribers, and when already dirty it is a
complete no-op notifying nobody. -/
theorem computedSched_spec (c : ComputedState) :
    (computedSched c).1.dirty = true ∧
    (computedSched c).1.value = c.value ∧
    (computedSched c).1.getterCount = c.getterCount ∧
    (c.dirty = false → computedSched c = ({ c with dirty := true }, c.subs)) ∧
    (c.dirty = true → computedSched c = (c, [])) :=
  computedSched_props c

theorem computedSched_spec_witness :
    computedSched ⟨false, 3, 4, [2]⟩ = (⟨true, 3, 4, [2]⟩, [2]) :=
  (computedSched_spec ⟨false, 3, 4, [2]⟩).2.2.2.1 rfl

/-- Claim C4: reading a computed whose dirty flag is false returns the
cached value without invoking the getter; after a dependency change
(scheduler invocation) the getter has not yet run, the next read runs it
exactly once and resets dirty to false, and a further read does not run
it again. -/
theorem computed_lazy_recompute (c : ComputedState) (o o2 : Option EffectId) (gv gv2 : Nat) :
    (c.dirty = false →
      (computedGetValue o gv c).1 = c.value ∧
      (computedGetValue o gv c).2.getterCount = c.getterCount ∧
      (computedGetValue o gv c).2.dirty = false) ∧
    ((computedSched c).1.getterCount = c.getterCount) ∧
    ((computedGetValue o gv (computedSched c).1).2.getterCount = c.getterCount + 1 ∧
     (computedGetValue o gv (computedSched c).1).2.dirty = false ∧
     (computedGetValue o gv (computedSched c).1).1 = gv) ∧
    ((computedGetValue o2 gv2 (computedGetValue o gv (computedSched c).1).2).2.getterCount =
      c.getterCount + 1) := by
  have hd : ((computedSched c).1).dirty = true := (computedSched_props c).1
  have hg : ((computedSched c).1).getterCount = c.getterCount := (computedSched_props c).2.2.1
  refine ⟨?_, hg, ?_, ?_⟩
  · intro hdirty
    simp [computedGetValue, trackRefStep_dirty, trackRefStep_value,
      trackRefStep_getterCount, hdirty]
  · simp [computedGetValue, trackRefStep_dirty, trackRefStep_getterCount, hd, hg]
  · simp [computedGetValue, trackRefStep_dirty, trackRefStep_getterCount, hd, hg]

theorem computed_lazy_recompute_witness :
    (computedGetValue (some 9) 42 ⟨false, 7, 1, []⟩).1 = 7 ∧
    (computedGetValue (some 9) 42 ⟨false, 7, 1, []⟩).2.getterCount = 1 :=
  ⟨((computed_lazy_recompute ⟨false, 7, 1, []⟩ (some 9) none 42 0).1 rfl).1,
   ((computed_lazy_recompute ⟨false, 7, 1, []⟩ (some 9) none 42 0).1 rfl).2.1⟩

theorem mem_addIfAbsent (l : List EffectId) (e x : EffectId) :
    x ∈ addIfAbsent l e ↔ x ∈ l ∨ x = e := by
  by_cases h : e ∈ l
  · simp only [addIfAbsent, if_pos h]
    constructor
    · exact Or.inl
    · rintro (hx | rfl)
      · exact hx
      · exact h
  · simp [addIfAbsent, if_neg h]

theorem nodup_addIfAbsent (l : List EffectId) (e : EffectId) (h : l.Nodup) :
    (addIfAbsent l e).Nodup := by
  by_cases he : e ∈ l
  · simpa [addIfAbsent, if_pos he] using h
  · simp [addIfAbsent, if_neg he, List.nodup_append, h, he]

theorem addRunners_cons (env : Env) (acc : List EffectId × List EffectId)
    (e : EffectId) (l : List EffectId) :
    addRunners env acc (some (e :: l)) =
      addRunners env
        (if (env.eff e).computed then (acc.1, addIfAbsent acc.2 e)
         else (addIfAbsent acc.1 e, acc.2)) (some l) := by
  simp [addRunners]

theorem addRunners_fst_mem (env : Env) (acc : List EffectId × List EffectId)
    (o : Option (List EffectId)) (x : EffectId) :
    x ∈ (addRunners env acc o).1 ↔
      x ∈ acc.1 ∨ (x ∈ o.getD [] ∧ (env.eff x).computed = false) := by
  cases o with
  | none => simp [addRunners]
  | some l =>
    induction l generalizing acc with
    | nil => simp [addRunners]
    | cons e l ih =>
      rw [addRunners_cons]
      by_cases hc : (env.eff e).computed
      · rw [if_pos hc, ih]
        simp only [Option.getD_some, List.mem_cons]
        constructor
        · rintro (hx | ⟨hxl, hcf⟩)
          · exact Or.inl hx
          · exact Or.inr ⟨Or.inr hxl, hcf⟩
        · rintro (hx | ⟨hx | hxl, hcf⟩)
          · exact Or.inl hx
          · subst hx; rw [hc] at hcf; cases hcf
          · exact Or.inr ⟨hxl, hcf⟩
      · rw [if_neg hc, ih]
        have hc' : (env.eff e).computed = false := Bool.not_eq_true _ ▸ hc
        simp only [Option.getD_some, List.mem_cons, mem_addIfAbsent]
        constructor
        · rintro ((hx | rfl) | ⟨hxl, hcf⟩)
          · exact Or.inl hx
          · exact Or.inr ⟨Or.inl rfl, hc'⟩
          · exact Or.inr ⟨Or.inr hxl, hcf⟩
        · rintro (hx | ⟨hx | hxl, hcf⟩)
          · exact Or.inl (Or.inl hx)
          · exact Or.inl (Or.inr hx)
          · exact Or.inr ⟨hxl, hcf⟩

theorem addRunners_snd_mem (env : Env) (acc : List EffectId × List EffectId)
    (o : Option (List EffectId)) (x : EffectId) :
    x ∈ (addRunners env acc o).2 ↔
      x ∈ acc.2 ∨ (x ∈ o.getD [] ∧ (env.eff x).computed = true) := by
  cases o with
  | none => simp [addRunners]
  | some l =>
    induction l generalizing acc with
    | nil => simp [addRunners]
    | cons e l ih =>
      rw [addRunners_cons]
      by_cases hc : (env.eff e).computed
      · rw [if_pos hc, ih]
        simp only [Option.getD_some, List.mem_cons, mem_addIfAbsent]
        constructor
        · rintro ((hx | rfl) | ⟨hxl, hcf⟩)
          · exact Or.inl hx
          · exact Or.inr ⟨Or.inl rfl, hc⟩
          · exact Or.inr ⟨Or.inr hxl, hcf⟩
        · rintro (hx | ⟨hx | hxl, hcf⟩)
          · exact Or.inl (Or.inl hx)
          · exact Or.inl (Or.inr hx)
          · exact Or.inr ⟨hxl, hcf⟩
      · rw [if_neg hc, ih]
        have hc' : (env.eff e).computed = false := Bool.not_eq_true _ ▸ hc
        simp only [Option.getD_some, List.mem_cons]
        constructor
        · rintro (hx | ⟨hxl, hcf⟩)
          · exact Or.inl hx
          · exact Or.inr ⟨Or.inr hxl, hcf⟩
        · rintro (hx | ⟨hx | hxl, hcf⟩)
          · exact Or.inl hx
          · subst hx; rw [hc'] at hcf; cases hcf
          · exact Or.inr ⟨hxl, hcf⟩

theorem addRunners_fst_nodup (env : Env) (acc : List EffectId × List EffectId)
    (o : Option (List EffectId)) (h : acc.1.Nodup) : (addRunners env acc o).1.Nodup := by
  cases o with
  | none => exact h
  | some l =>
    induction l generalizing acc with
    | nil => exact h
    | cons e l ih =>
      rw [addRunners_cons]
      by_cases hc : (env.eff e).computed
      · rw [if_pos hc]; exact ih _ h
      · rw [if_neg hc]; exact ih _ (nodup_addIfAbsent _ _ h)

theorem addRunners_snd_nodup (env : Env) (acc : List EffectId × List EffectId)
    (o : Option (List EffectId)) (h : acc.2.Nodup) : (addRunners env acc o).2.Nodup := by
  cases o with
  | none => exact h
  | some l =>
    induction l generalizing acc with
    | nil => exact h
    | cons e l ih =>
      rw [addRunners_cons]
      by_cases hc : (env.eff e).computed
      · rw [if_pos hc]; exact ih _ (nodup_addIfAbsent _ _ h)
      · rw [if_neg hc]; exact ih _ h

/-- Invariants of the pair collected by triggerPartition: both result
sets are duplicate-free, the first holds only non-computed effects and
the second only computed ones. -/
theorem triggerPartition_inv (env : Env) (st : State) (t : Tgt) (type : OperationTypes)
    (k : Option Key) (efs crs : List EffectId)
    (h : triggerPartition env st t type k = some (efs, crs)) :
    efs.Nodup ∧ crs.Nodup ∧
    (∀ x ∈ efs, (env.eff x).computed = false) ∧
    (∀ x ∈ crs, (env.eff x).computed = true) := by
  have base :
      ∀ (dm : DepsMap) (acc : List EffectId × List EffectId),
        acc.1.Nodup → acc.2.Nodup →
        (∀ x ∈ acc.1, (env.eff x).computed = false) →
        (∀ x ∈ acc.2, (env.eff x).computed = true) →
        (dm.foldl (fun acc p => addRunners env acc (some p.2)) acc).1.Nodup ∧
        (dm.foldl (fun acc p => addRunners env acc (some p.2)) acc).2.Nodup ∧
        (∀ x ∈ (dm.foldl (fun acc p => addRunners env acc (some p.2)) acc).1,
          (env.eff x).computed = false) ∧
        (∀ x ∈ (dm.foldl (fun acc p => addRunners env acc (some p.2)) acc).2,
          (env.eff x).computed = true) := by
    intro dm
    induction dm with
    | nil => intro acc h1 h2 h3 h4; exact ⟨h1, h2, h3, h4⟩
    | cons p dm ih =>
      intro acc h1 h2 h3 h4
      refine ih _ (addRunners_fst_nodup env acc _ h1) (addRunners_snd_nodup env acc _ h2) ?_ ?_
      · intro x hx
        rcases (addRunners_fst_mem env acc _ x).1 hx with hx' | ⟨_, hcf⟩
        · exact h3 x hx'
        · exact hcf
      · intro x hx
        rcases (addRunners_snd_mem env acc _ x).1 hx with hx' | ⟨_, hcf⟩
        · exact h4 x hx'
        · exact hcf
  have single :
      ∀ (acc : List EffectId × List EffectId) (o : Option (List EffectId)),
        acc.1.Nodup → acc.2.Nodup →
        (∀ x ∈ acc.1, (env.eff x).computed = false) →
        (∀ x ∈ acc.2, (env.eff x).computed = true) →
        (addRunners env acc o).1.Nodup ∧ (addRunners env acc o).2.Nodup ∧
        (∀ x ∈ (addRunners env acc o).1, (env.eff x).computed = false) ∧
        (∀ x ∈ (addRunners env acc o).2, (env.eff x).computed = true) := by
    intro acc o h1 h2 h3 h4
    refine ⟨addRunners_fst_nodup env acc o h1, addRunners_snd_nodup env acc o h2, ?_, ?_⟩
    · intro x hx
      rcases (addRunners_fst_mem env acc o x).1 hx with hx' | ⟨_, hcf⟩
      · exact h3 x hx'
      · exact hcf
    · intro x hx
      rcases (addRunners_snd_mem env acc o x).1 hx with hx' | ⟨_, hcf⟩
      · exact h4 x hx'
      · exact hcf
  unfold triggerPartition at h
  cases hm : alget st.targetMap t with
  | none => rw [hm] at h; cases h
  | some dm =>
    rw [hm] at h
    dsimp only at h
    by_cases hclear : type = OperationTypes.clear
    · rw [if_pos hclear] at h
      have := base dm ([], []) (by simp) (by simp) (by simp) (by simp)
      rw [Option.some.inj h] at this
      exact this
    · rw [if_neg hclear] at h
      have s1 := single ([], []) (if k.isSome then alget dm k else none)
        (by simp) (by simp) (by simp) (by simp)
      have hacc1 :
          (if k.isSome then addRunners env ([], []) (alget dm k) else ([], [])) =
            addRunners env ([], []) (if k.isSome then alget dm k else none) := by
        by_cases hk : k.isSome <;> simp [hk, addRunners]
      rw [hacc1] at h
      obtain ⟨a1, a2, a3, a4⟩ := s1
      by_cases hiter : type = OperationTypes.add ∨ type = OperationTypes.delete
      · rw [if_pos hiter] at h
        have s2 := single _ (alget dm (some (iterationKey env t))) a1 a2 a3 a4
        rw [Option.some.inj h] at s2
        exact s2
      · rw [if_neg hiter] at h
        rw [Option.some.inj h] at a1 a2 a3 a4
        exact ⟨a1, a2, a3, a4⟩

/-- Claim C1: the notification list of a single trigger call is
duplicate-free (each subscribed effect is invoked at most once, even
when reachable through several of the selected Dependency Sets) and
splits as a block of computed (derived-value) effects followed by a
block of plain effects, so every derived reaction is invoked before any
plain one. -/
theorem trigger_computed_first (env : Env) (st : State) (t : Tgt)
    (type : OperationTypes) (k : Option Key) :
    (trigger env st t type k).Nodup ∧
    ∃ cs ps, trigger env st t type k = cs ++ ps ∧
      (∀ e ∈ cs, (env.eff e).computed = true) ∧
      (∀ e ∈ ps, (env.eff e).computed = false) := by
  unfold trigger
  cases hp : triggerPartition env st t type k with
  | none => exact ⟨List.nodup_nil, [], [], rfl, by simp, by simp⟩
  | some pr =>
    obtain ⟨efs, crs⟩ := pr
    obtain ⟨h1, h2, h3, h4⟩ := triggerPartition_inv env st t type k efs crs hp
    refine ⟨?_, crs, efs, rfl, h4, h3⟩
    refine List.Nodup.append h2 h1 ?_
    intro x hxc hxe
    have hT := h4 x hxc
    have hF := h3 x hxe
    rw [hT] at hF
    cases hF

theorem depGetD_of_alget (tm : TargetMap) (t : Tgt) (dm : DepsMap) (k : Option Key)
    (h : alget tm t = some dm) : depGetD tm t k = (alget dm k).getD [] := by
  simp [depGetD, depGet, h]

theorem depGetD_of_none (tm : TargetMap) (t : Tgt) (k : Option Key)
    (h : alget tm t = none) : depGetD tm t k = [] := by
  simp [depGetD, depGet, h]

theorem addRunners_mem_union (env : Env) (acc : List EffectId × List EffectId)
    (o : Option (List EffectId)) (x : EffectId) :
    (x ∈ (addRunners env acc o).1 ∨ x ∈ (addRunners env acc o).2) ↔
      ((x ∈ acc.1 ∨ x ∈ acc.2) ∨ x ∈ o.getD []) := by
  rw [addRunners_fst_mem, addRunners_snd_mem]
  cases hc : (env.eff x).computed <;> simp [hc] <;> tauto

/-- Claim C6: trigger on a target that has never been tracked is a
silent no-op (empty notification list, engine state unchanged); for the
non-CLEAR kinds with a present key, the set of notified effects is
exactly the Dependency Set of the key plus, for ADD and DELETE, the
Dependency Set of the synthetic iteration key (the length field for
arrays); and the trigger call first collects the whole list from the
pre-trigger state, before invoking any of the listed effects. -/
theorem trigger_untracked_noop_exact_set (env : Env) (st : State) (t : Tgt)
    (type : OperationTypes) :
    (alget st.targetMap t = none →
      (∀ k, trigger env st t type k = []) ∧
      (∀ k fuel, engine env (fuel + 2) (Call.trig t type k) st = (st, Res.ok))) ∧
    (type ≠ OperationTypes.clear →
      ∀ k e, e ∈ trigger env st t type (some k) ↔
        (e ∈ depGetD st.targetMap t (some k) ∨
         ((type = OperationTypes.add ∨ type = OperationTypes.delete) ∧
          e ∈ depGetD st.targetMap t (some (iterationKey env t))))) ∧
    (∀ k fuel, engine env (fuel + 1) (Call.trig t type k) st =
      engine env fuel (Call.runs (trigger env st t type k)) st) := by
  have hstep : ∀ k fuel, engine env (fuel + 1) (Call.trig t type k) st =
      engine env fuel (Call.runs (trigger env st t type k)) st := by
    intro k fuel
    rfl
  refine ⟨?_, ?_, hstep⟩
  · intro hnone
    have hemp : ∀ k, trigger env st t type k = [] := by
      intro k
      unfold trigger triggerPartition
      rw [hnone]
    refine ⟨hemp, ?_⟩
    intro k fuel
    rw [hstep k (fuel + 1), hemp k]
    rfl
  · intro hclear k e
    unfold trigger triggerPartition
    cases hm : alget st.targetMap t with
    | none =>
      rw [depGetD_of_none _ _ _ hm, depGetD_of_none _ _ _ hm]
      simp
    | some dm =>
      dsimp only
      rw [if_neg hclear]
      rw [depGetD_of_alget _ _ _ _ hm, depGetD_of_alget _ _ _ _ hm]
      have hks : (some k).isSome = true := rfl
      rw [if_pos hks]
      by_cases hiter : type = OperationTypes.add ∨ type = OperationTypes.delete
      · rw [if_pos hiter]
        have hm1 := addRunners_mem_union env
          (addRunners env ([], []) (alget dm (some k)))
          (alget dm (some (iterationKey env t))) e
        have hm2 := addRunners_mem_union env ([], []) (alget dm (some k)) e
        constructor
        · intro hmem
          rw [List.mem_append] at hmem
          have : e ∈ (alget dm (some k)).getD [] ∨
              e ∈ (alget dm (some (iterationKey env t))).getD [] := by
            rcases hm1.1 (Or.symm hmem) with hacc | hik
            · rcases hm2.1 hacc with hnil | hk
              · simp at hnil
              · exact Or.inl hk
            · exact Or.inr hik
          rcases this with hk | hik
          · exact Or.inl hk
          · exact Or.inr ⟨hiter, hik⟩
        · intro hmem
          rw [List.mem_append]
          have : e ∈ (alget dm (some k)).getD [] ∨
              e ∈ (alget dm (some (iterationKey env t))).getD [] := by
            rcases hmem with hk | ⟨_, hik⟩
            · exact Or.inl hk
            · exact Or.inr hik
          rcases this with hk | hik
          · exact Or.symm (hm1.2 (Or.inl (hm2.2 (Or.inr hk))))
          · exact Or.symm (hm1.2 (Or.inr hik))
      · rw [if_neg hiter]
        have hm2 := addRunners_mem_union env ([], []) (alget dm (some k)) e
        constructor
        · intro hmem
          rw [List.mem_append] at hmem
          rcases hm2.1 (Or.symm hmem) with hnil | hk
          · simp at hnil
          · exact Or.inl hk
        · intro hmem
          rw [List.mem_append]
          rcases hmem with hk | ⟨hit, _⟩
          · exact Or.symm (hm2.2 (Or.inr hk))
          · exact absurd hit hiter

theorem track_stack (st : State) (t : Tgt) (type : OperationTypes) (k : Option Key) :
    (track st t type k).stack = st.stack := by
  simp only [track]
  split
  · rfl
  · split
    · rfl
    · split
      · rfl
      · rfl

theorem track_shouldTrack (st : State) (t : Tgt) (type : OperationTypes) (k : Option Key) :
    (track st t type k).shouldTrack = st.shouldTrack := by
  simp only [track]
  split
  · rfl
  · split
    · rfl
    · split
      · rfl
      · rfl

theorem track_of_stack_empty (st : State) (t : Tgt) (type : OperationTypes) (k : Option Key)
    (h : st.stack = []) : track st t type k = st := by
  simp only [track]
  rw [h]
  split
  · rfl
  · rfl

theorem cleanup_stack (e : EffectId) (st : State) : (cleanup e st).stack = st.stack := by
  simp only [cleanup]
  split
  · rfl
  · rfl

theorem cleanup_shouldTrack (e : EffectId) (st : State) :
    (cleanup e st).shouldTrack = st.shouldTrack := by
  simp only [cleanup]
  split
  · rfl
  · rfl

theorem cleanup_heap (e : EffectId) (st : State) : (cleanup e st).heap = st.heap := by
  simp only [cleanup]
  split
  · rfl
  · rfl

/-- The interpreter never changes the running stack across a completed
call: every push performed by runE is matched by the pop in its finally
block, and this holds whatever the outcome (normal, thrown or fuel
exhaustion), because the pop is unconditional. -/
theorem engine_stack (env : Env) :
    ∀ fuel call st, ((engine env fuel call st).1).stack = st.stack := by
  intro fuel
  induction fuel with
  | zero => intro call st; rfl
  | succ f ih =>
    intro call st
    cases call with
    | runE e =>
      simp only [engine]
      by_cases ha : (dynOf st e).active = false
      · rw [if_pos ha]; exact ih _ _
      · rw [if_neg ha]
        by_cases hs : e ∈ st.stack
        · rw [if_pos hs]
        · rw [if_neg hs]
          show ((engine env f (.body (env.eff e).body) (pushRun (cleanup e st) e)).1.stack).tail
              = st.stack
          rw [ih (.body (env.eff e).body) (pushRun (cleanup e st) e)]
          show ((cleanup e st).stack) = st.stack
          exact cleanup_stack e st
    | body ops =>
      cases ops with
      | nil => rfl
      | cons op rest =>
        cases op with
        | readOp t k =>
          simp only [engine]
          exact (ih _ _).trans (track_stack st t OperationTypes.get (some k))
        | throwOp => rfl
        | writeOp t k v =>
          simp only [engine]
          exact ih _ _
        | incrOp t k =>
          simp only [engine]
          exact (ih _ _).trans (track_stack st t OperationTypes.get (some k))
    | trig t type k => exact ih _ _
    | evs l rest =>
      cases l with
      | nil => exact ih _ _
      | cons ev es =>
        simp only [engine]
        have h1 := ih (Call.trig ev.1 ev.2.1 (some ev.2.2)) st
        cases hr : (engine env f (Call.trig ev.1 ev.2.1 (some ev.2.2)) st).2 with
        | ok =>
          simp only [hr]
          exact (ih _ _).trans h1
        | thrown => simp only [hr]; exact h1
        | fuelOut => simp only [hr]; exact h1
    | runs es =>
      cases es with
      | nil => rfl
      | cons e es =>
        simp only [engine]
        by_cases hsched : (env.eff e).scheduler
        · rw [if_pos hsched]
          exact ih _ _
        · rw [if_neg hsched]
          have h1 := ih (Call.runE e) st
          cases hr : (engine env f (Call.runE e) st).2 with
          | ok =>
            simp only [hr]
            exact (ih _ _).trans h1
          | thrown => simp only [hr]; exact h1
          | fuelOut => simp only [hr]; exact h1

/-- Concrete effect table for worked examples: effect 1 reads (0,"a"),
effect 2 increments (0,"n") (reads then writes old+1, like state.n++),
effect 3 throws, effect 7 is a computed effect with a scheduler. -/
def effW : EffectId → EffectStatic
  | 1 => ⟨false, false, [Op.readOp 0 (Key.str "a")]⟩
  | 2 => ⟨false, false, [Op.incrOp 0 (Key.str "n")]⟩
  | 3 => ⟨false, false, [Op.throwOp]⟩
  | 7 => ⟨true, true, []⟩
  | _ => ⟨false, false, []⟩

/-- Concrete environment for worked examples (no array targets). -/
def envW : Env := ⟨effW, fun _ => false⟩

/-- Fresh state: nothing tracked yet, no effect running, heap holding
(0,"n") = 0 and (0,"a") = 5. -/
def stW0 : State :=
  ⟨[], [], [], [((0, Key.str "n"), Val.num 0), ((0, Key.str "a"), Val.num 5)], true, [], []⟩

/-- State in which effect 1 is currently on the running stack. -/
def stW1 : State :=
  ⟨[], [], [1], [((0, Key.str "n"), Val.num 0)], true, [], []⟩

/-- State with materialised Dependency Sets: effects 1 and 7 subscribed
to (0,"a") and effect 4 to the iteration key. -/
def stTrackedW : State :=
  ⟨[(0, [(some (Key.str "a"), [1, 7]), (some Key.iterate, [4])])], [], [], [], true, [], []⟩

theorem trigger_untracked_noop_exact_set_witness :
    (trigger envW stW0 0 OperationTypes.set (some (Key.str "a")) = []) ∧
    (engine envW 2 (Call.trig 0 OperationTypes.set (some (Key.str "a"))) stW0 =
      (stW0, Res.ok)) ∧
    (4 ∈ trigger envW stTrackedW 0 OperationTypes.add (some (Key.str "a")) ↔
      (4 ∈ depGetD stTrackedW.targetMap 0 (some (Key.str "a")) ∨
       ((OperationTypes.add = OperationTypes.add ∨
         OperationTypes.add = OperationTypes.delete) ∧
        4 ∈ depGetD stTrackedW.targetMap 0 (some (iterationKey envW 0))))) :=
  ⟨((trigger_untracked_noop_exact_set envW stW0 0 OperationTypes.set).1 rfl).1
      (some (Key.str "a")),
   ((trigger_untracked_noop_exact_set envW stW0 0 OperationTypes.set).1 rfl).2
      (some (Key.str "a")) 0,
   (trigger_untracked_noop_exact_set envW stTrackedW 0 OperationTypes.add).2.1
      (by decide) (Key.str "a") 4⟩

/-- Claim C8: whatever an effect body does — including throwing — run
restores the running stack (the finally-block pop always executes: the
net stack change of any completed interpreter call is zero), and the
outcome of the body (normal or thrown) is propagated unchanged as the
outcome of run, so a throwing reaction leaves the stack as it was for
subsequently-run reactions. -/
theorem run_pops_before_propagating (env : Env) (fuel : Nat) (e : EffectId) (st : State)
    (ha : (dynOf st e).active = true) (hs : e ∉ st.stack) :
    ((engine env (fuel + 1) (Call.runE e) st).1.stack = st.stack) ∧
    ((engine env (fuel + 1) (Call.runE e) st).2 =
      (engine env fuel (Call.body (env.eff e).body) (pushRun (cleanup e st) e)).2) := by
  refine ⟨engine_stack env (fuel + 1) (Call.runE e) st, ?_⟩
  have ha' : ¬ (dynOf st e).active = false := by rw [ha]; simp
  simp only [engine]
  rw [if_neg ha', if_neg hs]

theorem run_pops_before_propagating_witness :
    (((engine envW 5 (Call.runE 3) stW0).1.stack = stW0.stack) ∧
     ((engine envW 5 (Call.runE 3) stW0).2 =
       (engine envW 4 (Call.body (envW.eff 3).body) (pushRun (cleanup 3 stW0) 3)).2)) ∧
    (engine envW 5 (Call.runE 3) stW0).2 = Res.thrown :=
  ⟨run_pops_before_propagating envW 4 3 stW0 rfl (by decide), by decide⟩

/-- Claim C7: invoking a reaction that is already on the running stack
is a silent no-op (state unchanged, normal return with no value); as a
consequence, the self-mutating reaction whose body performs state.n++
(effect 2) runs its body exactly once per external invocation — the
write's trigger re-reaches the same effect but the guard skips it — and
leaves n = 1 with a normal outcome. -/
theorem reentrant_run_noop (env : Env) :
    (∀ fuel e st, (dynOf st e).active = true → e ∈ st.stack →
      engine env (fuel + 1) (Call.runE e) st = (st, Res.ok)) ∧
    ((engine envW 30 (Call.runE 2) stW0).2 = Res.ok ∧
     heapGet (engine envW 30 (Call.runE 2) stW0).1.heap 0 (Key.str "n") =
       some (Val.num 1) ∧
     (engine envW 30 (Call.runE 2) stW0).1.runLog = [2]) := by
  constructor
  · intro fuel e st ha hs
    have ha' : ¬ (dynOf st e).active = false := by rw [ha]; simp
    simp only [engine]
    rw [if_neg ha', if_pos hs]
  · refine ⟨by decide, by decide, by decide⟩

theorem reentrant_run_noop_witness :
    engine envW 1 (Call.runE 1) stW1 = (stW1, Res.ok) :=
  (reentrant_run_noop envW).1 0 1 stW1 rfl (by decide)

theorem depGetD_getD (tm : TargetMap) (t : Tgt) (k : Option Key) :
    depGetD tm t k = (alget ((alget tm t).getD []) k).getD [] := by
  cases hm : alget tm t <;> simp [depGetD, depGet, hm, alget]

/-- Characterisation of one dep.delete step: at the targeted location
(when it is materialised) the effect is erased, every other location is
untouched. -/
theorem depGetD_depDelMap (tm : TargetMap) (t : Tgt) (k : Option Key) (e : EffectId)
    (t' : Tgt) (k' : Option Key) :
    depGetD (depDelMap tm t k e) t' k' =
      if t' = t ∧ k' = k ∧ (depGet tm t k).isSome then (depGetD tm t k).erase e
      else depGetD tm t' k' := by
  unfold depDelMap
  cases hm : alget tm t with
  | none =>
    have : (depGet tm t k).isSome = false := by simp [depGet, hm]
    simp [this]
  | some dm =>
    cases hk : alget dm k with
    | none =>
      have : (depGet tm t k).isSome = false := by simp [depGet, hm, hk]
      simp [this, hk]
    | some dep =>
      have hsome : (depGet tm t k).isSome = true := by simp [depGet, hm, hk]
      have hdep : depGetD tm t k = dep := by simp [depGetD, depGet, hm, hk]
      by_cases ht : t' = t
      · subst ht
        have h1 : alget (alset tm t' (alset dm k (dep.erase e))) t' =
            some (alset dm k (dep.erase e)) := alget_alset_self _ _ _
        by_cases hkk : k' = k
        · subst hkk
          simp [depGetD, depGet, h1, alget_alset_self, hsome, hdep, hk, hm]
        · simp [depGetD, depGet, h1, alget_alset_ne _ _ _ _ hkk, hm, hkk, hk]
      · have h1 : alget (alset tm t (alset dm k (dep.erase e))) t' = alget tm t' :=
          alget_alset_ne _ _ _ _ ht
        simp [depGetD, depGet, h1, ht, hk]

theorem depDelMap_no_new (tm : TargetMap) (t : Tgt) (k : Option Key) (e : EffectId)
    (x : EffectId) (t' : Tgt) (k' : Option Key)
    (h : x ∈ depGetD (depDelMap tm t k e) t' k') : x ∈ depGetD tm t' k' := by
  rw [depGetD_depDelMap] at h
  split at h
  · next hc =>
    obtain ⟨rfl, rfl, _⟩ := hc
    exact (List.erase_subset _ _) h
  · exact h

theorem depDelMap_nodup (tm : TargetMap) (t : Tgt) (k : Option Key) (e : EffectId)
    (h : ∀ a b, (depGetD tm a b).Nodup) (a : Tgt) (b : Option Key) :
    (depGetD (depDelMap tm t k e) a b).Nodup := by
  rw [depGetD_depDelMap]
  split
  · exact (h t k).erase e
  · exact h a b

theorem depDelMap_removes (tm : TargetMap) (t : Tgt) (k : Option Key) (e : EffectId)
    (hnd : (depGetD tm t k).Nodup) : e ∉ depGetD (depDelMap tm t k e) t k := by
  rw [depGetD_depDelMap]
  split
  · intro hmem
    exact ((List.Nodup.mem_erase_iff hnd).1 hmem).1 rfl
  · next hc =>
    intro hmem
    rcases Decidable.not_and_iff_or_not.1 hc with h | h
    · exact h rfl
    rcases Decidable.not_and_iff_or_not.1 h with h' | h'
    · exact h' rfl
    · have : depGet tm t k = none := by
        cases hg : depGet tm t k
        · rfl
        · rw [hg] at h'; simp at h'
      have : depGetD tm t k = [] := by simp [depGetD, this]
      rw [this] at hmem
      cases hmem

/-- Folding dep.delete over a list of locations adds no membership
anywhere. -/
theorem depDelFold_no_new (e : EffectId) (ds : List (Tgt × Option Key)) :
    ∀ (tm : TargetMap) (x : EffectId) (t : Tgt) (k : Option Key),
      x ∈ depGetD (ds.foldl (fun tm p => depDelMap tm p.1 p.2 e) tm) t k →
      x ∈ depGetD tm t k := by
  induction ds with
  | nil => intro tm x t k h; exact h
  | cons p ds ih =>
    intro tm x t k h
    exact depDelMap_no_new tm p.1 p.2 e x t k (ih _ x t k h)

theorem depDelFold_nodup (e : EffectId) (ds : List (Tgt × Option Key)) :
    ∀ (tm : TargetMap), (∀ a b, (depGetD tm a b).Nodup) →
      ∀ a b, (depGetD (ds.foldl (fun tm p => depDelMap tm p.1 p.2 e) tm) a b).Nodup := by
  induction ds with
  | nil => intro tm h a b; exact h a b
  | cons p ds ih =>
    intro tm h a b
    exact ih _ (depDelMap_nodup tm p.1 p.2 e h) a b

/-- After folding dep.delete over a list of locations containing (t,k),
the effect is no longer a member at (t,k). -/
theorem depDelFold_removes (e : EffectId) (ds : List (Tgt × Option Key)) :
    ∀ (tm : TargetMap), (∀ a b, (depGetD tm a b).Nodup) →
      ∀ t k, (t, k) ∈ ds →
        e ∉ depGetD (ds.foldl (fun tm p => depDelMap tm p.1 p.2 e) tm) t k := by
  induction ds with
  | nil => intro tm _ t k h; cases h
  | cons p ds ih =>
    intro tm hnd t k hmem
    rcases List.mem_cons.1 hmem with heq | htail
    · intro hx
      have h1 : e ∈ depGetD (depDelMap tm p.1 p.2 e) t k :=
        depDelFold_no_new e ds _ e t k hx
      rw [← heq] at h1
      exact depDelMap_removes tm t k e (hnd t k) h1
    · exact ih _ (depDelMap_nodup tm p.1 p.2 e hnd) t k htail

/-- cleanup removes the effect from every Dependency Set (under the
back-reference invariant linking memberships to the deps list) and
empties the deps back-reference list. -/
theorem cleanup_spec (st : State) (e : EffectId)
    (hwf1 : ∀ t k, (depGetD st.targetMap t k).Nodup)
    (hback : ∀ t k, e ∈ depGetD st.targetMap t k → (t, k) ∈ (dynOf st e).deps) :
    (∀ t k, e ∉ depGetD (cleanup e st).targetMap t k) ∧
    (dynOf (cleanup e st) e).deps = [] := by
  by_cases hlen : (dynOf st e).deps.length = 0
  · have hnil : (dynOf st e).deps = [] := List.length_eq_zero.1 hlen
    have hcl : cleanup e st = st := by simp [cleanup, hlen]
    constructor
    · intro t k hmem
      rw [hcl] at hmem
      have := hback t k hmem
      rw [hnil] at this
      cases this
    · rw [hcl, hnil]
  · have hcl : cleanup e st =
        { st with
          targetMap := (dynOf st e).deps.foldl (fun tm p => depDelMap tm p.1 p.2 e)
            st.targetMap
          dyn := alset st.dyn e { dynOf st e with deps := [] } } := by
      simp [cleanup, hlen]
    constructor
    · intro t k hmem
      rw [hcl] at hmem
      by_cases hd : (t, k) ∈ (dynOf st e).deps
      · exact depDelFold_removes e _ st.targetMap hwf1 t k hd hmem
      · have := hback t k (depDelFold_no_new e _ st.targetMap e t k hmem)
        exact hd this
    · rw [hcl]
      show ((alget (alset st.dyn e { dynOf st e with deps := [] }) e).getD ⟨true, []⟩).deps = []
      rw [alget_alset_self]
      rfl

theorem track_of_shouldTrack_false (st : State) (t : Tgt) (type : OperationTypes)
    (k : Option Key) (h : st.shouldTrack = false) : track st t type k = st := by
  simp [track, h]

/-- Membership characterisation of one track step when an effect e is on
top of the stack and tracking is on: memberships are unchanged except
that e is now a member at the normalised location. -/
theorem track_mem_iff (st : State) (t : Tgt) (type : OperationTypes) (k : Option Key)
    (e : EffectId) (he : st.stack.head? = some e) (hT : st.shouldTrack = true)
    (x : EffectId) (t' : Tgt) (k' : Option Key) :
    x ∈ depGetD (track st t type k).targetMap t' k' ↔
      x ∈ depGetD st.targetMap t' k' ∨ (x = e ∧ t' = t ∧ k' = normKey type k) := by
  have hT' : ¬ st.shouldTrack = false := by rw [hT]; simp
  simp only [track, if_neg hT', he]
  by_cases hmem :
      e ∈ (alget ((alget st.targetMap t).getD []) (normKey type k)).getD []
  · rw [if_pos hmem]
    constructor
    · exact Or.inl
    · rintro (h | ⟨rfl, rfl, rfl⟩)
      · exact h
      · rw [depGetD_getD]
        exact hmem
  · rw [if_neg hmem]
    by_cases ht : t' = t
    · subst ht
      have h1 : alget (alset st.targetMap t'
            (alset ((alget st.targetMap t').getD []) (normKey type k)
              ((alget ((alget st.targetMap t').getD []) (normKey type k)).getD [] ++ [e])))
            t' =
          some (alset ((alget st.targetMap t').getD []) (normKey type k)
            ((alget ((alget st.targetMap t').getD []) (normKey type k)).getD [] ++ [e])) :=
        alget_alset_self _ _ _
      by_cases hkk : k' = normKey type k
      · subst hkk
        rw [depGetD_getD, depGetD_getD]
        simp only [h1, Option.getD_some, alget_alset_self]
        simp only [Option.getD_some, List.mem_append, List.mem_singleton]
        constructor
        · rintro (hx | rfl)
          · exact Or.inl hx
          · exact Or.inr (by simp)
        · rintro (hx | ⟨rfl, _, _⟩)
          · exact Or.inl hx
          · exact Or.inr rfl
      · rw [depGetD_getD, depGetD_getD]
        simp only [h1, Option.getD_some, alget_alset_ne _ _ _ _ hkk]
        constructor
        · exact Or.inl
        · rintro (hx | ⟨_, _, hk'⟩)
          · exact hx
          · exact absurd hk' hkk
    · rw [depGetD_getD, depGetD_getD]
      rw [alget_alset_ne _ _ _ _ ht]
      constructor
      · exact Or.inl
      · rintro (hx | ⟨_, ht', _⟩)
        · exact hx
        · exact absurd ht' ht

/-- trackReads: the state after executing a list of tracked GET reads. -/
def trackReads (st : State) (rs : List (Tgt × Key)) : State :=
  rs.foldl (fun s p => track s p.1 OperationTypes.get (some p.2)) st

theorem trackReads_stack (rs : List (Tgt × Key)) :
    ∀ st : State, (trackReads st rs).stack = st.stack := by
  induction rs with
  | nil => intro st; rfl
  | cons p rs ih =>
    intro st
    show (trackReads (track st p.1 OperationTypes.get (some p.2)) rs).stack = st.stack
    rw [ih, track_stack]

theorem trackReads_shouldTrack (rs : List (Tgt × Key)) :
    ∀ st : State, (trackReads st rs).shouldTrack = st.shouldTrack := by
  induction rs with
  | nil => intro st; rfl
  | cons p rs ih =>
    intro st
    show (trackReads (track st p.1 OperationTypes.get (some p.2)) rs).shouldTrack
        = st.shouldTrack
    rw [ih, track_shouldTrack]

theorem trackReads_of_stack_empty (rs : List (Tgt × Key)) :
    ∀ st : State, st.stack = [] → trackReads st rs = st := by
  induction rs with
  | nil => intro st _; rfl
  | cons p rs ih =>
    intro st h
    show trackReads (track st p.1 OperationTypes.get (some p.2)) rs = st
    rw [track_of_stack_empty st p.1 OperationTypes.get (some p.2) h]
    exact ih st h

/-- Executing a body made only of reads, with enough fuel, is exactly the
fold of track over the read list and completes normally. -/
theorem engine_body_reads (env : Env) (rs : List (Tgt × Key)) :
    ∀ fuel (st : State), rs.length < fuel →
      engine env fuel (Call.body (rs.map (fun p => Op.readOp p.1 p.2))) st =
        (trackReads st rs, Res.ok) := by
  induction rs with
  | nil =>
    intro fuel st hf
    cases fuel with
    | zero => exact absurd hf (Nat.not_lt_zero _)
    | succ f => rfl
  | cons p rs ih =>
    intro fuel st hf
    cases fuel with
    | zero => exact absurd hf (Nat.not_lt_zero _)
    | succ f =>
      have hf' : rs.length < f := by
        have := Nat.lt_of_succ_lt_succ hf
        simpa using this
      show engine env f (Call.body (rs.map (fun p => Op.readOp p.1 p.2)))
          (track st p.1 OperationTypes.get (some p.2)) = _
      rw [ih f _ hf']
      rfl

/-- Membership after a fold of tracked reads with effect e on top of the
stack: exactly the old memberships plus e at each location read. -/
theorem trackReads_mem (rs : List (Tgt × Key)) :
    ∀ (st : State) (e : EffectId), st.stack.head? = some e → st.shouldTrack = true →
      ∀ (x : EffectId) (t' : Tgt) (k' : Option Key),
        x ∈ depGetD (trackReads st rs).targetMap t' k' ↔
          x ∈ depGetD st.targetMap t' k' ∨
            (x = e ∧ ∃ p ∈ rs, t' = p.1 ∧ k' = some p.2) := by
  induction rs with
  | nil => intro st e _ _ x t' k'; simp [trackReads]
  | cons p rs ih =>
    intro st e he hT x t' k'
    have hstep : trackReads st (p :: rs) =
        trackReads (track st p.1 OperationTypes.get (some p.2)) rs := rfl
    have he2 : (track st p.1 OperationTypes.get (some p.2)).stack.head? = some e := by
      rw [track_stack]; exact he
    have hT2 : (track st p.1 OperationTypes.get (some p.2)).shouldTrack = true := by
      rw [track_shouldTrack]; exact hT
    rw [hstep, ih _ e he2 hT2 x t' k',
      track_mem_iff st p.1 OperationTypes.get (some p.2) e he hT x t' k']
    have hnorm : normKey OperationTypes.get (some p.2) = some p.2 := rfl
    rw [hnorm]
    constructor
    · rintro ((hx | ⟨rfl, rfl, rfl⟩) | ⟨rfl, q, hq, rfl, rfl⟩)
      · exact Or.inl hx
      · exact Or.inr ⟨rfl, p, List.mem_cons_self p rs, rfl, rfl⟩
      · exact Or.inr ⟨rfl, q, List.mem_cons_of_mem p hq, rfl, rfl⟩
    · rintro (hx | ⟨rfl, q, hq, rfl, rfl⟩)
      · exact Or.inl (Or.inl hx)
      · rcases List.mem_cons.1 hq with rfl | hq'
        · exact Or.inl (Or.inr ⟨rfl, rfl, rfl⟩)
        · exact Or.inr ⟨rfl, q, hq', rfl, rfl⟩

/-- Claim C2: cleanup (the first step of every re-execution) removes the
effect from every Dependency Set and empties its back-reference list;
track only ever adds the effect currently on top of the running stack;
and after a complete run of an effect whose body is a list of reads,
the effect is a member of the Dependency Set of a location if and only
if that location was read during this (its most recent) execution. -/
theorem dependency_membership_iff (env : Env) (st : State) (e : EffectId)
    (rs : List (Tgt × Key)) (fuel : Nat)
    (hwf1 : ∀ t k, (depGetD st.targetMap t k).Nodup)
    (hback : ∀ t k, e ∈ depGetD st.targetMap t k → (t, k) ∈ (dynOf st e).deps)
    (hstack : st.stack = [])
    (hT : st.shouldTrack = true)
    (ha : (dynOf st e).active = true)
    (hbody : (env.eff e).body = rs.map (fun p => Op.readOp p.1 p.2))
    (hfuel : rs.length < fuel) :
    ((∀ t k, e ∉ depGetD (cleanup e st).targetMap t k) ∧
     (dynOf (cleanup e st) e).deps = []) ∧
    (∀ (st' : State) t type k x t' k',
      x ∈ depGetD (track st' t type k).targetMap t' k' →
      x ∈ depGetD st'.targetMap t' k' ∨ st'.stack.head? = some x) ∧
    (∀ t k,
      e ∈ depGetD ((engine env (fuel + 1) (Call.runE e) st).1).targetMap t (some k) ↔
        ∃ p ∈ rs, t = p.1 ∧ k = p.2) := by
  have hclean := cleanup_spec st e hwf1 hback
  refine ⟨hclean, ?_, ?_⟩
  · intro st' t type k x t' k' hx
    by_cases hT' : st'.shouldTrack = true
    · cases hh : st'.stack.head? with
      | none =>
        have : track st' t type k = st' := by
          simp [track, hh]
        rw [this] at hx
        exact Or.inl hx
      | some eT =>
        rcases (track_mem_iff st' t type k eT hh hT' x t' k').1 hx with h | ⟨rfl, _, _⟩
        · exact Or.inl h
        · exact Or.inr rfl
    · have hF : st'.shouldTrack = false := by
        cases hb : st'.shouldTrack
        · rfl
        · exact absurd hb hT'
      rw [track_of_shouldTrack_false st' t type k hF] at hx
      exact Or.inl hx
  · intro t k
    have ha' : ¬ (dynOf st e).active = false := by rw [ha]; simp
    have hs : e ∉ st.stack := by rw [hstack]; exact List.not_mem_nil e
    have hmain : (engine env (fuel + 1) (Call.runE e) st).1.targetMap =
        (engine env fuel (Call.body (env.eff e).body)
          (pushRun (cleanup e st) e)).1.targetMap := by
      simp only [engine]
      rw [if_neg ha', if_neg hs]
    rw [hmain, hbody, engine_body_reads env rs fuel _ hfuel]
    have hhead : (pushRun (cleanup e st) e).stack.head? = some e := rfl
    have hT2 : (pushRun (cleanup e st) e).shouldTrack = true := by
      show (cleanup e st).shouldTrack = true
      rw [cleanup_shouldTrack]; exact hT
    rw [trackReads_mem rs (pushRun (cleanup e st) e) e hhead hT2 e t (some k)]
    have hclean1 : e ∉ depGetD (pushRun (cleanup e st) e).targetMap t (some k) :=
      hclean.1 t (some k)
    constructor
    · rintro (hx | ⟨_, q, hq, rfl, hk⟩)
      · exact absurd hx hclean1
      · exact ⟨q, hq, rfl, Option.some.inj hk⟩
    · rintro ⟨q, hq, rfl, rfl⟩
      exact Or.inr ⟨rfl, q, hq, rfl, rfl⟩

theorem dependency_membership_iff_witness :
    1 ∈ depGetD ((engine envW 3 (Call.runE 1) stW0).1).targetMap 0 (some (Key.str "a")) ↔
      ∃ p ∈ [((0 : Tgt), Key.str "a")], (0 : Tgt) = p.1 ∧ Key.str "a" = p.2 :=
  (dependency_membership_iff envW stW0 1 [(0, Key.str "a")] 2
    (by intro t k; simp [depGetD, depGet, alget])
    (by intro t k h; simp [depGetD, depGet, alget] at h)
    rfl rfl rfl rfl (by decide)).2.2 0 (Key.str "a")

/-- Claim C9: stop on an active effect clears every Dependency Set
membership (under the back-reference invariant), empties the deps list,
fires onStop (the true flag), marks the effect inactive, and a second
stop is a complete no-op not firing onStop again; stop on an inactive
effect does nothing; and invoking a stopped effect executes its body
directly — with no effect on the stack it performs no tracking and no
re-subscription, leaving the whole state unchanged except the ghost run
log. -/
theorem stop_of_inactive (st : State) (e : EffectId)
    (h : (dynOf st e).active = false) : stop e st = (st, false) := by
  simp [stop, h]

theorem stop_idempotent (env : Env) (st : State) (e : EffectId)
    (rs : List (Tgt × Key)) (fuel : Nat)
    (hwf1 : ∀ t k, (depGetD st.targetMap t k).Nodup)
    (hback : ∀ t k, e ∈ depGetD st.targetMap t k → (t, k) ∈ (dynOf st e).deps) :
    ((dynOf st e).active = true →
      (stop e st).2 = true ∧
      (dynOf (stop e st).1 e).active = false ∧
      (dynOf (stop e st).1 e).deps = [] ∧
      (∀ t k, e ∉ depGetD (stop e st).1.targetMap t k) ∧
      stop e (stop e st).1 = ((stop e st).1, false)) ∧
    ((dynOf st e).active = false → stop e st = (st, false)) ∧
    ((dynOf st e).active = false → st.stack = [] →
      (env.eff e).body = rs.map (fun p => Op.readOp p.1 p.2) → rs.length < fuel →
      engine env (fuel + 1) (Call.runE e) st =
        ({ st with runLog := st.runLog ++ [e] }, Res.ok)) := by
  refine ⟨?_, ?_, ?_⟩
  · intro ha
    have hclean := cleanup_spec st e hwf1 hback
    have hstop : stop e st =
        ({ cleanup e st with
            dyn := alset (cleanup e st).dyn e
              { dynOf (cleanup e st) e with active := false } },
         true) := by
      simp [stop, ha]
    have hdyn : dynOf (stop e st).1 e =
        { dynOf (cleanup e st) e with active := false } := by
      rw [hstop]
      show (alget (alset (cleanup e st).dyn e
        { dynOf (cleanup e st) e with active := false }) e).getD ⟨true, []⟩ = _
      rw [alget_alset_self]
      rfl
    refine ⟨by rw [hstop], by rw [hdyn], ?_, ?_, ?_⟩
    · rw [hdyn]
      show (dynOf (cleanup e st) e).deps = []
      exact hclean.2
    · intro t k
      rw [hstop]
      exact hclean.1 t k
    · have hinact : (dynOf (stop e st).1 e).active = false := by rw [hdyn]
      exact stop_of_inactive _ _ hinact
  · intro ha
    exact stop_of_inactive _ _ ha
  · intro ha hstack hbody hfuel
    have step1 : engine env (fuel + 1) (Call.runE e) st =
        engine env fuel (Call.body (env.eff e).body)
          { st with runLog := st.runLog ++ [e] } := by
      simp only [engine]
      rw [if_pos ha]
    rw [step1, hbody, engine_body_reads env rs fuel _ hfuel]
    have hemp := trackReads_of_stack_empty rs { st with runLog := st.runLog ++ [e] } hstack
    rw [hemp]

theorem stop_idempotent_witness :
    ((stop 5 stW0).2 = true ∧
     (dynOf (stop 5 stW0).1 5).active = false ∧
     (dynOf (stop 5 stW0).1 5).deps = [] ∧
     stop 5 (stop 5 stW0).1 = ((stop 5 stW0).1, false)) ∧
    (engine envW 2 (Call.runE 5) (stop 5 stW0).1 =
      ({ (stop 5 stW0).1 with runLog := (stop 5 stW0).1.runLog ++ [5] }, Res.ok)) := by
  have h1 := (stop_idempotent envW stW0 5 [] 1
    (by intro t k; simp [depGetD, depGet, alget])
    (by intro t k h; simp [depGetD, depGet, alget] at h)).1 rfl
  have h2 := (stop_idempotent envW (stop 5 stW0).1 5 [] 1
    (by intro t k; simp [stop, stW0, cleanup, dynOf, alget, depGetD, depGet])
    (by intro t k h; simp [stop, stW0, cleanup, dynOf, alget, depGetD, depGet] at h)).2.2
    (by decide) (by decide) rfl (by decide)
  exact ⟨⟨h1.1, h1.2.1, h1.2.2.1, h1.2.2.2.2⟩, h2⟩

end VueReactivity
